import Mathlib

/-!
Shallow embedding of `src/CubeTree.hpp` (template `CubeTree<N, MaxT, T, FType>`).

Modelling conventions:
* `FType` (a floating-point type in the source) is modelled as `ℚ`, exact arithmetic.
* `glm::vec<3, FType>` is `Vec3`, the `BBox` struct is `BBox` (`center` + full side `length`,
  exactly as stored by the source).
* The externally owned entity type `T` is `Entity`: an identity (`id`, standing for the
  `shared_ptr` identity used by `==` on `std::shared_ptr`), the mutable fields `m_position`
  (`pos`) and `m_prevPosition` (`prevPos`).
* The `CubeTree` node is the mutual inductive `CubeTree`; the `CubeTree* children[N][N][N]`
  array is `CTForest`, the N*N*N slots flattened in lexicographic `(i, j, k)` order, a
  `consNone` link standing for a null slot.  Parent pointers are not stored: the model always
  manipulates whole trees from the root, and the `parent->insert` climb of the source is the
  fuel recursion of `CubeTree.insert` (each growth step allocates the parent and retries).
* Mutexes, `std::async` and the thread budget are dropped; the functions model the sequential
  linearization in source order (a node's own entities first, then the children in slot order).
-/


/-!
Kernel-evaluable rational arithmetic.  Mathlib/Batteries mark `Rat.add`, `Rat.mul`, ... as
irreducible, which blocks `decide` on concrete geometry; these equivalents are built from the
reducible `mkRat`/`Rat.normalize` and proved equal to the field operations, so definitions
written with them both evaluate by `decide` on concrete inputs and rewrite to ordinary
`+ - * /` (lemmas `qAdd_eq` ... `qDiv_eq`) in general proofs.
-/

def qAdd (a b : ℚ) : ℚ := mkRat (a.num * b.den + b.num * a.den) (a.den * b.den)

def qSub (a b : ℚ) : ℚ := mkRat (a.num * b.den - b.num * a.den) (a.den * b.den)

def qMul (a b : ℚ) : ℚ := mkRat (a.num * b.num) (a.den * b.den)

def qInv (a : ℚ) : ℚ := mkRat (a.den * a.num.sign) a.num.natAbs

def qDiv (a b : ℚ) : ℚ := qMul a (qInv b)

theorem qAdd_eq (a b : ℚ) : qAdd a b = a + b := by
  rw [qAdd, Rat.mkRat_eq_div]
  conv_rhs => rw [← Rat.num_div_den a, ← Rat.num_div_den b]
  have ha : ((a.den : ℚ)) ≠ 0 := by positivity
  have hb : ((b.den : ℚ)) ≠ 0 := by positivity
  push_cast
  field_simp

theorem qSub_eq (a b : ℚ) : qSub a b = a - b := by
  rw [qSub, Rat.mkRat_eq_div]
  conv_rhs => rw [← Rat.num_div_den a, ← Rat.num_div_den b]
  have ha : ((a.den : ℚ)) ≠ 0 := by positivity
  have hb : ((b.den : ℚ)) ≠ 0 := by positivity
  push_cast
  field_simp
  ring

theorem qMul_eq (a b : ℚ) : qMul a b = a * b := by
  rw [qMul, Rat.mkRat_eq_div]
  conv_rhs => rw [← Rat.num_div_den a, ← Rat.num_div_den b]
  have ha : ((a.den : ℚ)) ≠ 0 := by positivity
  have hb : ((b.den : ℚ)) ≠ 0 := by positivity
  push_cast
  field_simp

theorem qInv_eq (a : ℚ) : qInv a = a⁻¹ := by
  rcases lt_trichotomy a.num 0 with h | h | h
  · rw [qInv, Rat.mkRat_eq_div, Int.sign_eq_neg_one_of_neg h]
    conv_rhs => rw [← Rat.num_div_den a]
    rw [inv_div]
    have hnum : ((a.num.natAbs : ℚ)) = -(a.num : ℚ) := by
      rw [Int.cast_natAbs]
      simp [abs_of_neg (show (a.num : ℚ) < 0 by exact_mod_cast h)]
    rw [hnum]
    push_cast
    have : (a.num : ℚ) ≠ 0 := by exact_mod_cast h.ne
    field_simp
  · have ha : a = 0 := Rat.num_eq_zero.mp h
    subst ha
    simp [qInv]
  · rw [qInv, Rat.mkRat_eq_div, Int.sign_eq_one_of_pos h]
    conv_rhs => rw [← Rat.num_div_den a]
    rw [inv_div]
    have hnum : ((a.num.natAbs : ℚ)) = (a.num : ℚ) := by
      rw [Int.cast_natAbs]
      exact_mod_cast abs_of_pos h
    rw [hnum]
    push_cast
    ring_nf

theorem qDiv_eq (a b : ℚ) : qDiv a b = a / b := by
  rw [qDiv, qMul_eq, qInv_eq, div_eq_mul_inv]

structure Vec3 where
  x : ℚ
  y : ℚ
  z : ℚ
  deriving DecidableEq

structure BBox where
  center : Vec3
  length : ℚ
  deriving DecidableEq

structure Entity where
  id : ℕ
  pos : Vec3
  prevPos : Vec3
  deriving DecidableEq

mutual

inductive CubeTree : Type where
  | mk (box : BBox) (data : List Entity) (children : CTForest) : CubeTree
  deriving DecidableEq

inductive CTForest : Type where
  | nil : CTForest
  | consNone (tl : CTForest) : CTForest
  | consSome (hd : CubeTree) (tl : CTForest) : CTForest
  deriving DecidableEq

end

namespace CubeTree

/-- Field accessor for the `box` member. -/
def box : CubeTree → BBox
  | .mk b _ _ => b

/-- Field accessor for the `data` member (the `std::vector<std::shared_ptr<T>>`). -/
def data : CubeTree → List Entity
  | .mk _ d _ => d

/-- Field accessor for the `children` member. -/
def children : CubeTree → CTForest
  | .mk _ _ c => c

/-- Static member `inside(box, pos)`: inclusive slab containment test with
`halfBl = box.length / 2` on all three axes (source lines 57-62). -/
def inside (box : BBox) (pos : Vec3) : Bool :=
  let halfBl : ℚ := qDiv box.length 2
  decide ((pos.x ≥ qSub box.center.x halfBl ∧ pos.x ≤ qAdd box.center.x halfBl) ∧
    (pos.y ≥ qSub box.center.y halfBl ∧ pos.y ≤ qAdd box.center.y halfBl) ∧
    (pos.z ≥ qSub box.center.z halfBl ∧ pos.z ≤ qAdd box.center.z halfBl))

/-- Squared Euclidean distance between two points. -/
def sqDist (a b : Vec3) : ℚ :=
  qAdd (qAdd (qMul (qSub a.x b.x) (qSub a.x b.x)) (qMul (qSub a.y b.y) (qSub a.y b.y)))
    (qMul (qSub a.z b.z) (qSub a.z b.z))

/-- Exact model of the test `glm::distance(a, b) <= r` (source line 312): over the reals,
`dist a b ≤ r` holds iff `0 ≤ r` and `dist² a b ≤ r²`, which avoids the irrational square
root. -/
def distLe (a b : Vec3) (r : ℚ) : Bool :=
  decide (0 ≤ r ∧ sqDist a b ≤ qMul r r)

/-- Member `intersects(center, range, box)` (source lines 332-341): axis-aligned slab test
between the sphere's bounding box and the node's bounding box. -/
def intersects (center : Vec3) (range : ℚ) (box : BBox) : Bool :=
  let boxMinX : ℚ := qSub box.center.x (qDiv box.length 2)
  let boxMinY : ℚ := qSub box.center.y (qDiv box.length 2)
  let boxMinZ : ℚ := qSub box.center.z (qDiv box.length 2)
  let boxMaxX : ℚ := qAdd box.center.x (qDiv box.length 2)
  let boxMaxY : ℚ := qAdd box.center.y (qDiv box.length 2)
  let boxMaxZ : ℚ := qAdd box.center.z (qDiv box.length 2)
  decide ((qSub center.x range ≤ boxMaxX ∧ qAdd center.x range ≥ boxMinX) ∧
    (qSub center.y range ≤ boxMaxY ∧ qAdd center.y range ≥ boxMinY) ∧
    (qSub center.z range ≤ boxMaxZ ∧ qAdd center.z range ≥ boxMinZ))

/-- Cube of child slot `(i, j, k)` as computed inside `insertToChild` (source lines 395-403):
side `box.length / N`, center at the minimum corner of the parent plus `childLength * (idx + 0.5)`
per axis. -/
def childBBox (N : ℕ) (box : BBox) (i j k : ℕ) : BBox :=
  let childLength : ℚ := qDiv box.length (N : ℚ)
  { center :=
      { x := qAdd (qSub box.center.x (qDiv box.length 2)) (qMul childLength (qAdd (i : ℚ) (mkRat 1 2)))
        y := qAdd (qSub box.center.y (qDiv box.length 2)) (qMul childLength (qAdd (j : ℚ) (mkRat 1 2)))
        z := qAdd (qSub box.center.z (qDiv box.length 2)) (qMul childLength (qAdd (k : ℚ) (mkRat 1 2))) }
    length := childLength }

/-- The `(i, j, k)` loop nest of the source in lexicographic order. -/
def slots (N : ℕ) : List (ℕ × ℕ × ℕ) :=
  (List.range N).flatMap fun i =>
    (List.range N).flatMap fun j =>
      (List.range N).map fun k => (i, j, k)

/-- Flat index of slot `(i, j, k)` in the `children[N][N][N]` array. -/
def flatIdx (N i j k : ℕ) : ℕ :=
  (i * N + j) * N + k

end CubeTree

namespace CTForest

/-- Slot list with `n` null entries (a freshly zero-initialized `children` array). -/
def nones : ℕ → CTForest
  | 0 => .nil
  | n + 1 => .consNone (nones n)

/-- Number of slots. -/
def length : CTForest → ℕ
  | .nil => 0
  | .consNone tl => tl.length + 1
  | .consSome _ tl => tl.length + 1

/-- Read slot `m` (null slots read as `none`). -/
def getSlot : CTForest → ℕ → Option CubeTree
  | .nil, _ => none
  | .consNone _, 0 => none
  | .consSome hd _, 0 => some hd
  | .consNone tl, m + 1 => tl.getSlot m
  | .consSome _ tl, m + 1 => tl.getSlot m

/-- Write slot `m` (out-of-range writes are dropped; never exercised on well-formed arrays of
`N ^ 3` slots). -/
def setSlot : CTForest → ℕ → Option CubeTree → CTForest
  | .nil, _, _ => .nil
  | .consNone tl, 0, none => .consNone tl
  | .consNone tl, 0, some c => .consSome c tl
  | .consSome _ tl, 0, none => .consNone tl
  | .consSome _ tl, 0, some c => .consSome c tl
  | .consNone tl, m + 1, v => .consNone (tl.setSlot m v)
  | .consSome hd tl, m + 1, v => .consSome hd (tl.setSlot m v)

/-- Whether some slot is non-null; `isParent()` of the source (lines 101-107) applied to a
child array. -/
def anySome : CTForest → Bool
  | .nil => false
  | .consNone tl => tl.anySome
  | .consSome _ _ => true

end CTForest

namespace CubeTree

/-- Member `isParent()` (source lines 101-107): true iff some child slot is non-null. -/
def isParent (t : CubeTree) : Bool :=
  t.children.anySome

/-- Append an entity to a node's own `data` vector: the `child->data.push_back(data)` arm of
`insertToChild` (source line 410). -/
def pushData : CubeTree → Entity → CubeTree
  | .mk b d c, e => .mk b (d ++ [e]) c

/-- Result of `new CubeTree(childBBox, data)` (constructor, source lines 29-32): a fresh node
whose constructor runs `insert(data)` on the empty leaf.  With `inside box e.pos` (guaranteed
at the single call site, which just tested the same predicate; the constructor throws
otherwise) and `0 < MaxT` that insert appends `e`; with `MaxT = 0` the insert takes the
subdivision branch over an empty list and silently drops `e`. -/
def mkLeaf (N MaxT : ℕ) (box : BBox) (e : Entity) : CubeTree :=
  if inside box e.pos ∧ 0 < MaxT then .mk box [e] (CTForest.nones (N ^ 3))
  else .mk box [] (CTForest.nones (N ^ 3))

/-- Member `insertToChild(data)` (source lines 388-422): scan the N³ candidate child cubes in
lexicographic order; at the first cube containing the position, either construct the child
leaf (null slot) or push the entity onto the existing child's own list, then return.  If no
candidate cube contains the position the function falls through and the entity is silently
not placed. -/
def insertToChild (N MaxT : ℕ) (box : BBox) (children : CTForest) (e : Entity) : CTForest :=
  match (slots N).find? (fun s => inside (childBBox N box s.1 s.2.1 s.2.2) e.pos) with
  | none => children
  | some (i, j, k) =>
    match children.getSlot (flatIdx N i j k) with
    | none => children.setSlot (flatIdx N i j k) (some (mkLeaf N MaxT (childBBox N box i j k) e))
    | some c => children.setSlot (flatIdx N i j k) (some (c.pushData e))

/-- The in-bounds branch of `insert` (source lines 428-442): route to a child if internal;
append if a leaf under capacity; otherwise subdivide — redistribute every held entity through
`insertToChild` and clear the list.  Note the redistributed entities are the previously held
ones only: the argument `e` is not inserted on the subdivision path. -/
def insertStep (N MaxT : ℕ) : CubeTree → Entity → CubeTree
  | .mk box data children, e =>
    if children.anySome then .mk box data (insertToChild N MaxT box children e)
    else if data.length < MaxT then .mk box (data ++ [e]) children
    else .mk box [] (data.foldl (fun cs d => insertToChild N MaxT box cs d) children)

/-- The parent constructor `CubeTree(CubeTree* child)` (source lines 35-41): the new node
keeps the child's center, its side length is `pow(child->box.length, 2)`, and the old node is
installed at the slot whose per-axis index is `0` when the child's center is strictly left of
the new center and `N - 1` otherwise (the centers coincide, so the test is kept verbatim). -/
def grow (N : ℕ) (t : CubeTree) : CubeTree :=
  let newBox : BBox := { center := t.box.center, length := qMul t.box.length t.box.length }
  let i : ℕ := if t.box.center.x < newBox.center.x then 0 else N - 1
  let j : ℕ := if t.box.center.y < newBox.center.y then 0 else N - 1
  let k : ℕ := if t.box.center.z < newBox.center.z then 0 else N - 1
  .mk newBox [] ((CTForest.nones (N ^ 3)).setSlot (flatIdx N i j k) (some t))

/-- Member `insert(data)` (source lines 426-448), seen from the root: if the position is
inside the root's cube perform `insertStep`; otherwise allocate the enclosing parent (`grow`)
and retry there.  The upward climb of the source is unbounded recursion, modelled with fuel:
`none` means the retry loop has not terminated within `fuel` growth steps. -/
def insert (N MaxT : ℕ) : ℕ → CubeTree → Entity → Option CubeTree
  | 0, _, _ => none
  | fuel + 1, t, e =>
    if inside t.box e.pos then some (insertStep N MaxT t e)
    else insert N MaxT fuel (grow N t) e

end CubeTree

mutual

/-- Every entity held in the subtree, node's own list first, then the children in slot
order. -/
def CubeTree.allEntities : CubeTree → List Entity
  | .mk _ data children => data ++ CTForest.allEntities children

/-- Entities held across a child array. -/
def CTForest.allEntities : CTForest → List Entity
  | .nil => []
  | .consNone tl => CTForest.allEntities tl
  | .consSome c tl => CubeTree.allEntities c ++ CTForest.allEntities tl

end

mutual

/-- Member `queryRange(entity, range, results)` (source lines 303-329): if the sphere's
bounding box meets this node's box, keep the node's own entities within Euclidean distance
`range` of the query entity's position and recurse into every non-null child; otherwise
contribute nothing. -/
def CubeTree.queryRange (e : Entity) (range : ℚ) : CubeTree → List Entity
  | .mk box data children =>
    if CubeTree.intersects e.pos range box then
      data.filter (fun q => CubeTree.distLe e.pos q.pos range) ++
        CTForest.queryRange e range children
    else []

/-- Child-array part of `queryRange`: the recursion over `children[i][j][k]` in slot order. -/
def CTForest.queryRange (e : Entity) (range : ℚ) : CTForest → List Entity
  | .nil => []
  | .consNone tl => CTForest.queryRange e range tl
  | .consSome c tl => CubeTree.queryRange e range c ++ CTForest.queryRange e range tl

end

mutual

/-- Member `remove(data)` (source lines 363-385): nothing is touched unless the entity's
current position is inside this node's cube; then the first identity match in the node's own
list is erased, else the children are tried in slot order, stopping at the first success.
Returns the success flag paired with the resulting subtree. -/
def CubeTree.remove (x : Entity) : CubeTree → Bool × CubeTree
  | .mk box data children =>
    if CubeTree.inside box x.pos then
      if x ∈ data then (true, .mk box (data.erase x) children)
      else
        let r := CTForest.remove x children
        (r.1, .mk box data r.2)
    else (false, .mk box data children)

/-- Child-array part of `remove`: try each non-null child in slot order, stopping at the
first success. -/
def CTForest.remove (x : Entity) : CTForest → Bool × CTForest
  | .nil => (false, .nil)
  | .consNone tl =>
    let r := CTForest.remove x tl
    (r.1, .consNone r.2)
  | .consSome c tl =>
    let rc := CubeTree.remove x c
    if rc.1 then (true, .consSome rc.2 tl)
    else
      let r := CTForest.remove x tl
      (r.1, .consSome c r.2)

end

namespace CubeTree

/-- Whether an entity counts as a mover in `collectAndRemove` (source line 148):
`m_position != m_prevPosition`. -/
def moved (e : Entity) : Bool :=
  decide (¬ e.pos = e.prevPos)

end CubeTree

mutual

/-- Static member `collectAndRemove` (source lines 144-180): erase every mover from the
node's own list and append it to the shared `toReinsert` vector, then recurse into the
children.  The parallel child tasks are modelled by their sequential linearization in slot
order (the claims proved below do not depend on the interleaving). -/
def CubeTree.collectAndRemove : CubeTree → CubeTree × List Entity
  | .mk box data children =>
    let fr := CTForest.collectAndRemove children
    (.mk box (data.filter fun e => ! CubeTree.moved e) fr.1,
      (data.filter CubeTree.moved) ++ fr.2)

/-- Child-array part of `collectAndRemove`. -/
def CTForest.collectAndRemove : CTForest → CTForest × List Entity
  | .nil => (.nil, [])
  | .consNone tl =>
    let r := CTForest.collectAndRemove tl
    (.consNone r.1, r.2)
  | .consSome c tl =>
    let rc := CubeTree.collectAndRemove c
    let r := CTForest.collectAndRemove tl
    (.consSome rc.1 r.1, rc.2 ++ r.2)

end

namespace CubeTree

/-- Static member `update(threads, root)` (source lines 182-216): collect and erase all
movers, then reinsert each one through `insert` on the current root (the reinsertions are
serialized through `insertMutex` in the source) and set its `m_prevPosition` to its
`m_position` (the source performs these writes alongside the inserts; `insert` reads only
`m_position`, so the result is the same), finally walk up to the topmost parent — in this
whole-tree model, the value `insert` returns.  `none` means some reinsertion's growth loop
failed to terminate within `fuel` steps. -/
def update (N MaxT fuel : ℕ) (t : CubeTree) : Option CubeTree :=
  let c := collectAndRemove t
  c.2.foldl
    (fun acc e => acc.bind fun tr => insert N MaxT fuel tr { e with prevPos := e.pos })
    (some c.1)

end CubeTree

mutual

/-- Structural invariant of the specification's data model, checked over every node: an
internal node (some child slot non-null) holds no entities of its own, and a leaf holds at
most `MaxT` entities. -/
def CubeTree.structInv (MaxT : ℕ) : CubeTree → Bool
  | .mk _ data children =>
    (if children.anySome then data.isEmpty else decide (data.length ≤ MaxT)) &&
      CTForest.structInv MaxT children

/-- Child-array part of `structInv`. -/
def CTForest.structInv (MaxT : ℕ) : CTForest → Bool
  | .nil => true
  | .consNone tl => CTForest.structInv MaxT tl
  | .consSome c tl => CubeTree.structInv MaxT c && CTForest.structInv MaxT tl

end

mutual

/-- Geometric well-formedness used by the query claims: every entity held in a node's subtree
lies inside that node's cube (at every node of the tree). -/
def CubeTree.covers : CubeTree → Bool
  | .mk box data children =>
    (data ++ CTForest.allEntities children).all (fun e => CubeTree.inside box e.pos) &&
      CTForest.covers children

/-- Child-array part of `covers`. -/
def CTForest.covers : CTForest → Bool
  | .nil => true
  | .consNone tl => CTForest.covers tl
  | .consSome c tl => CubeTree.covers c && CTForest.covers tl

end

/-! ## Propositional characterizations of the boolean geometry tests -/

namespace CubeTree

theorem inside_iff (b : BBox) (p : Vec3) :
    inside b p = true ↔
      (b.center.x - b.length / 2 ≤ p.x ∧ p.x ≤ b.center.x + b.length / 2) ∧
      (b.center.y - b.length / 2 ≤ p.y ∧ p.y ≤ b.center.y + b.length / 2) ∧
      (b.center.z - b.length / 2 ≤ p.z ∧ p.z ≤ b.center.z + b.length / 2) := by
  simp [inside, qSub_eq, qAdd_eq, qDiv_eq, ge_iff_le]

theorem intersects_iff (c : Vec3) (r : ℚ) (b : BBox) :
    intersects c r b = true ↔
      (c.x - r ≤ b.center.x + b.length / 2 ∧ b.center.x - b.length / 2 ≤ c.x + r) ∧
      (c.y - r ≤ b.center.y + b.length / 2 ∧ b.center.y - b.length / 2 ≤ c.y + r) ∧
      (c.z - r ≤ b.center.z + b.length / 2 ∧ b.center.z - b.length / 2 ≤ c.z + r) := by
  simp [intersects, qSub_eq, qAdd_eq, qDiv_eq, ge_iff_le]

theorem sqDist_eq (a b : Vec3) :
    sqDist a b = (a.x - b.x) ^ 2 + (a.y - b.y) ^ 2 + (a.z - b.z) ^ 2 := by
  simp [sqDist, qSub_eq, qAdd_eq, qMul_eq]
  ring

theorem distLe_iff (a b : Vec3) (r : ℚ) :
    distLe a b r = true ↔
      0 ≤ r ∧ (a.x - b.x) ^ 2 + (a.y - b.y) ^ 2 + (a.z - b.z) ^ 2 ≤ r ^ 2 := by
  simp [distLe, sqDist_eq, qMul_eq, sq]

theorem childBBox_center_x (N : ℕ) (b : BBox) (i j k : ℕ) :
    (childBBox N b i j k).center.x
      = b.center.x - b.length / 2 + b.length / N * ((i : ℚ) + 1 / 2) := by
  simp [childBBox, qSub_eq, qAdd_eq, qDiv_eq, qMul_eq]
  norm_num

theorem childBBox_center_y (N : ℕ) (b : BBox) (i j k : ℕ) :
    (childBBox N b i j k).center.y
      = b.center.y - b.length / 2 + b.length / N * ((j : ℚ) + 1 / 2) := by
  simp [childBBox, qSub_eq, qAdd_eq, qDiv_eq, qMul_eq]
  norm_num

theorem childBBox_center_z (N : ℕ) (b : BBox) (i j k : ℕ) :
    (childBBox N b i j k).center.z
      = b.center.z - b.length / 2 + b.length / N * ((k : ℚ) + 1 / 2) := by
  simp [childBBox, qSub_eq, qAdd_eq, qDiv_eq, qMul_eq]
  norm_num

theorem childBBox_length (N : ℕ) (b : BBox) (i j k : ℕ) :
    (childBBox N b i j k).length = b.length / N := by
  simp [childBBox, qDiv_eq]

end CubeTree

/-! ## Concrete inputs used by the counterexamples and witnesses -/

/-- Entity sitting at `(1,1,1)` with matching last-known position. -/
def demoE0 : Entity := ⟨0, ⟨1, 1, 1⟩, ⟨1, 1, 1⟩⟩

/-- Entity sitting at `(-1,-1,-1)` with matching last-known position. -/
def demoE1 : Entity := ⟨1, ⟨-1, -1, -1⟩, ⟨-1, -1, -1⟩⟩

/-- Second entity at `(1,1,1)` (distinct identity from `demoE0`). -/
def demoE2 : Entity := ⟨2, ⟨1, 1, 1⟩, ⟨1, 1, 1⟩⟩

/-- Cube of side 4 centered at the origin. -/
def demoBox : BBox := ⟨⟨0, 0, 0⟩, 4⟩

/-- A root that is a leaf at capacity for `MaxT = 1`: it holds exactly `demoE0`
(the state produced by `CubeTree(demoBox, demoE0)` with `N = 2`). -/
def demoFullLeaf : CubeTree := .mk demoBox [demoE0] (CTForest.nones 8)

/-- Cube of side `1/2` (positive half-extent `1/4`) centered at the origin. -/
def demoSmallBox : BBox := ⟨⟨0, 0, 0⟩, mkRat 1 2⟩

/-- An empty-leaf root over the small cube, for the divergence counterexample. -/
def demoSmallLeaf : CubeTree := .mk demoSmallBox [] (CTForest.nones 8)

/-- Entity far outside the small cube, at `(10,0,0)`. -/
def demoFarE : Entity := ⟨3, ⟨10, 0, 0⟩, ⟨10, 0, 0⟩⟩

/-! ## C1: insertion into a leaf at capacity -/

/-- C1: refuted on the code.  Inserting `demoE1` (inside the root cube) into a root leaf that
is at capacity (`MaxT = 1`, holding `demoE0`) redistributes `demoE0` into a child and clears
the list, but the new entity `demoE1` is never inserted: the resulting tree holds exactly
`[demoE0]`, and the follow-up `queryAround(demoE1, 0)` (that is, `queryRange` at the entity's
position with radius `0`) returns the empty list instead of a set containing `demoE1`. -/
theorem insert_at_capacity_drops_new_entity :
    (CubeTree.insert 2 1 5 demoFullLeaf demoE1).map CubeTree.allEntities = some [demoE0] ∧
    (CubeTree.insert 2 1 5 demoFullLeaf demoE1).map (CubeTree.queryRange demoE1 0)
      = some [] := by
  decide

/-! ## C2: the growth constructor -/

/-- C2: refuted on the code.  Growing the root of side 4 (with `N = 2`) produces a root of
side `16 = 4²` (the constructor squares the length) rather than `8 = 2 × 4`; the new center
equals the old center, and the old root is installed at the fixed corner slot
`(N-1, N-1, N-1)` (flat index 7) — the comparison `child.center < newBox.center` is between
equal centers, so the slot never depends on the position that triggered the growth. -/
theorem grow_squares_length_and_fixed_corner :
    (CubeTree.grow 2 demoFullLeaf).box.length = 16 ∧
    demoFullLeaf.box.length = 4 ∧
    (16 : ℚ) ≠ 2 * 4 ∧
    (CubeTree.grow 2 demoFullLeaf).box.center = demoFullLeaf.box.center ∧
    (CubeTree.grow 2 demoFullLeaf).children.getSlot 7 = some demoFullLeaf := by
  refine ⟨by decide, by decide, by norm_num, by decide, by decide⟩

/-! ## C4: the structural invariant -/

/-- C4: refuted on the code.  Starting from a root leaf at capacity (`N = 2`, `MaxT = 1`,
holding `demoE0`), inserting `demoE1` subdivides the root, and inserting `demoE2` (another
position `(1,1,1)` entity) is pushed by `insertToChild` onto the existing child's list with
no capacity check: the child leaf then holds 2 > `MaxT` entities, so the invariant "a leaf's
list has size at most Capacity" is violated by an insert-only operation sequence. -/
theorem structural_invariant_violated_by_child_push :
    ((CubeTree.insert 2 1 5 demoFullLeaf demoE1).bind
        (fun t => CubeTree.insert 2 1 5 t demoE2)).map (CubeTree.structInv 1) = some false ∧
    ((CubeTree.insert 2 1 5 demoFullLeaf demoE1).bind
        (fun t => CubeTree.insert 2 1 5 t demoE2)).map
          (fun t => (t.children.getSlot 7).map (fun c => c.data.length))
      = some (some 2) := by
  decide

/-! ## C6: termination of the growth-and-retry loop -/

/-- Any root cube centered at the origin with side in `[0, 1/2]` keeps the far entity
`demoFarE` outside forever: squaring a side `≤ 1/2` yields a side `≤ 1/2` again, so the
retry loop never reaches a cube containing the position, whatever the fuel. -/
theorem insert_diverges_aux (fuel : ℕ) :
    ∀ t : CubeTree, t.box.center.x = 0 → 0 ≤ t.box.length → t.box.length ≤ 1 / 2 →
      CubeTree.insert 2 1 fuel t demoFarE = none := by
  induction fuel with
  | zero => intro t _ _ _; rfl
  | succ n ih =>
    intro t hc h0 h1
    obtain ⟨b, d, ch⟩ := t
    simp only [CubeTree.box] at hc h0 h1
    have hins : CubeTree.inside b demoFarE.pos = false := by
      rw [Bool.eq_false_iff]
      intro hT
      rw [CubeTree.inside_iff] at hT
      have hx2 := hT.1.2
      simp [demoFarE] at hx2
      rw [hc] at hx2
      linarith
    rw [CubeTree.insert]
    simp only [CubeTree.box, hins, Bool.false_eq_true, if_false]
    apply ih
    · simp [CubeTree.grow, CubeTree.box, hc]
    · simp only [CubeTree.grow, CubeTree.box, qMul_eq]
      positivity
    · simp only [CubeTree.grow, CubeTree.box, qMul_eq]
      nlinarith

/-- C6: refuted on the code.  With a valid root cube (side `1/2`, so half-extent `1/4 > 0`)
and the finite position `(10, 0, 0)`, the growth-and-retry loop of `insert` never terminates:
for every amount of fuel the insertion is still retrying (each growth squares the side,
`1/2 → 1/4 → 1/16 → ...`, so the cube never grows to contain the position). -/
theorem insert_growth_loop_diverges_on_small_root :
    ∀ fuel : ℕ, CubeTree.insert 2 1 fuel demoSmallLeaf demoFarE = none := by
  intro fuel
  apply insert_diverges_aux
  · rfl
  · norm_num [demoSmallLeaf, demoSmallBox, CubeTree.box, Rat.mkRat_eq_div]
  · norm_num [demoSmallLeaf, demoSmallBox, CubeTree.box, Rat.mkRat_eq_div]

/-! ## C9: queries with non-positive radius -/

/-- C9, counterexample: a query with radius exactly `0` is non-positive, yet `queryRange`
returns the entity sitting exactly at the query center (here the queried entity itself)
rather than an empty sequence. -/
theorem queryAround_zero_radius_nonempty :
    (0 : ℚ) ≤ 0 ∧ CubeTree.queryRange demoE0 0 demoFullLeaf ≠ [] := by
  decide

mutual

/-- Helper for the amended C9, tree part: a strictly negative radius fails the membership
test `0 ≤ r` at every node, so no entity is ever collected. -/
theorem queryRange_neg_radius_aux (e : Entity) (r : ℚ) (hr : r < 0) (t : CubeTree) :
    CubeTree.queryRange e r t = [] := by
  cases t with
  | mk b d ch =>
    rw [CubeTree.queryRange]
    have hd : d.filter (fun q => CubeTree.distLe e.pos q.pos r) = [] := by
      apply List.filter_eq_nil_iff.mpr
      intro q _
      intro hT
      rcases (CubeTree.distLe_iff e.pos q.pos r).mp hT with ⟨h0, _⟩
      exact absurd h0 (not_le.mpr hr)
    rw [hd, queryRangeF_neg_radius_aux e r hr ch]
    simp

/-- Helper for the amended C9, forest part. -/
theorem queryRangeF_neg_radius_aux (e : Entity) (r : ℚ) (hr : r < 0) (f : CTForest) :
    CTForest.queryRange e r f = [] := by
  cases f with
  | nil => rfl
  | consNone tl => rw [CTForest.queryRange]; exact queryRangeF_neg_radius_aux e r hr tl
  | consSome c tl =>
    rw [CTForest.queryRange, queryRange_neg_radius_aux e r hr c,
      queryRangeF_neg_radius_aux e r hr tl]
    rfl

end

/-- C9, amended: a query with a strictly negative radius returns an empty sequence (and no
error); at radius exactly `0` the code instead returns the entities lying exactly at the
query center, so "non-positive" must be weakened to "negative". -/
theorem queryRange_neg_radius_empty (e : Entity) (r : ℚ) (t : CubeTree) (hr : r < 0) :
    CubeTree.queryRange e r t = [] :=
  queryRange_neg_radius_aux e r hr t

/-- Witness for the amended C9 at radius `-1` on a concrete one-node tree. -/
theorem queryRange_neg_radius_empty_witness :
    (-1 : ℚ) < 0 ∧ CubeTree.queryRange demoE0 (-1) demoFullLeaf = [] :=
  ⟨by norm_num, queryRange_neg_radius_empty demoE0 (-1) demoFullLeaf (by norm_num)⟩

/-! ## Forest surgery lemmas -/

theorem CTForest.allEntities_nones (n : ℕ) : (CTForest.nones n).allEntities = [] := by
  induction n with
  | zero => rfl
  | succ m ih => rw [CTForest.nones, CTForest.allEntities, ih]

theorem CTForest.length_nones (n : ℕ) : (CTForest.nones n).length = n := by
  induction n with
  | zero => rfl
  | succ m ih => rw [CTForest.nones, CTForest.length, ih]

theorem CubeTree.pushData_allEntities (c : CubeTree) (e : Entity) :
    (c.pushData e).allEntities.Perm (e :: c.allEntities) := by
  cases c with
  | mk b d ch =>
    rw [CubeTree.pushData, CubeTree.allEntities, CubeTree.allEntities]
    have : d ++ [e] ++ ch.allEntities = d ++ e :: ch.allEntities := by simp
    rw [this]
    exact List.perm_middle

theorem CubeTree.mkLeaf_allEntities (N MaxT : ℕ) (b : BBox) (e : Entity) (hM : 0 < MaxT)
    (hin : CubeTree.inside b e.pos = true) :
    (CubeTree.mkLeaf N MaxT b e).allEntities = [e] := by
  rw [CubeTree.mkLeaf, if_pos ⟨hin, hM⟩, CubeTree.allEntities,
    CTForest.allEntities_nones, List.append_nil]

theorem CTForest.allEntities_setSlot_perm (e : Entity) (f : CTForest) :
    ∀ m : ℕ, m < f.length → ∀ c' : CubeTree,
      c'.allEntities.Perm (e :: ((f.getSlot m).elim [] CubeTree.allEntities)) →
      (f.setSlot m (some c')).allEntities.Perm (e :: f.allEntities) := by
  cases f with
  | nil => intro m hm; simp [CTForest.length] at hm
  | consNone tl =>
    intro m hm c' hc'
    cases m with
    | zero =>
      simp only [CTForest.getSlot, Option.elim] at hc'
      rw [CTForest.setSlot, CTForest.allEntities, CTForest.allEntities]
      exact hc'.append_right tl.allEntities
    | succ m' =>
      rw [CTForest.setSlot, CTForest.allEntities, CTForest.allEntities]
      exact CTForest.allEntities_setSlot_perm e tl m'
        (by simpa [CTForest.length] using hm) c'
        (by simpa [CTForest.getSlot] using hc')
  | consSome hd tl =>
    intro m hm c' hc'
    cases m with
    | zero =>
      simp only [CTForest.getSlot, Option.elim] at hc'
      rw [CTForest.setSlot, CTForest.allEntities, CTForest.allEntities]
      exact hc'.append_right tl.allEntities
    | succ m' =>
      rw [CTForest.setSlot, CTForest.allEntities, CTForest.allEntities]
      have h := CTForest.allEntities_setSlot_perm e tl m'
        (by simpa [CTForest.length] using hm) c'
        (by simpa [CTForest.getSlot] using hc')
      exact (h.append_left hd.allEntities).trans List.perm_middle

/-! ## Child-slot geometry: totality of the selection scan -/

namespace CubeTree

theorem mem_slots (N : ℕ) (s : ℕ × ℕ × ℕ) :
    s ∈ slots N ↔ s.1 < N ∧ s.2.1 < N ∧ s.2.2 < N := by
  obtain ⟨i, j, k⟩ := s
  simp [slots, List.mem_flatMap, List.mem_map, List.mem_range]
  constructor
  · rintro ⟨i', hi', j', hj', k', hk', h1, h2, h3⟩
    subst h1; subst h2; subst h3
    exact ⟨hi', hj', hk'⟩
  · rintro ⟨hi, hj, hk⟩
    exact ⟨i, hi, j, hj, k, hk, rfl, rfl, rfl⟩

theorem flatIdx_lt (N i j k : ℕ) (hi : i < N) (hj : j < N) (hk : k < N) :
    flatIdx N i j k < N ^ 3 := by
  have h1 : i * N + j < N * N := by
    calc i * N + j < i * N + N := by omega
      _ = (i + 1) * N := by ring
      _ ≤ N * N := Nat.mul_le_mul_right N (by omega)
  calc flatIdx N i j k = (i * N + j) * N + k := rfl
    _ < (i * N + j) * N + N := by omega
    _ = (i * N + j + 1) * N := by ring
    _ ≤ (N * N) * N := Nat.mul_le_mul_right N (by omega)
    _ = N ^ 3 := by ring

theorem axis_slot (N : ℕ) (hN : 0 < N) (m cl p : ℚ) (hcl : 0 < cl)
    (h1 : m ≤ p) (h2 : p ≤ m + N * cl) :
    ∃ i : ℕ, i < N ∧ m + i * cl ≤ p ∧ p ≤ m + (i + 1) * cl := by
  set q : ℚ := (p - m) / cl with hq
  have hq0 : 0 ≤ q := div_nonneg (by linarith) hcl.le
  have hqcl : q * cl = p - m := div_mul_cancel₀ _ (ne_of_gt hcl)
  by_cases hc : ⌊q⌋₊ < N
  · refine ⟨⌊q⌋₊, hc, ?_, ?_⟩
    · have hfl : (⌊q⌋₊ : ℚ) ≤ q := Nat.floor_le hq0
      have hm := mul_le_mul_of_nonneg_right hfl hcl.le
      rw [hqcl] at hm
      linarith
    · have hfl : q < ⌊q⌋₊ + 1 := Nat.lt_floor_add_one q
      have hm := mul_le_mul_of_nonneg_right hfl.le hcl.le
      rw [hqcl] at hm
      linarith
  · push_neg at hc
    have hNq : (N : ℚ) ≤ q := (Nat.le_floor_iff hq0).mp hc
    have hqN : q ≤ N := by
      rw [hq, div_le_iff₀ hcl]
      linarith
    have hqeq : q = (N : ℚ) := le_antisymm hqN hNq
    have hNcl : (N : ℚ) * cl = p - m := by rw [← hqeq]; exact hqcl
    have hone : 1 ≤ N := hN
    have hcast : ((N - 1 : ℕ) : ℚ) = (N : ℚ) - 1 := by
      push_cast [Nat.cast_sub hone]
      ring
    refine ⟨N - 1, by omega, ?_, ?_⟩
    · rw [hcast]
      have hexp : ((N : ℚ) - 1) * cl = N * cl - cl := by ring
      rw [hexp]
      linarith
    · rw [hcast]
      have hexp : ((N : ℚ) - 1 + 1) * cl = N * cl := by ring
      rw [hexp]
      linarith

theorem exists_child_slot (N : ℕ) (hN : 0 < N) (b : BBox) (hL : 0 < b.length) (p : Vec3)
    (hp : inside b p = true) :
    ∃ s ∈ slots N, inside (childBBox N b s.1 s.2.1 s.2.2) p = true := by
  rw [inside_iff] at hp
  obtain ⟨⟨hx1, hx2⟩, ⟨hy1, hy2⟩, ⟨hz1, hz2⟩⟩ := hp
  have hNQ : (0 : ℚ) < N := by exact_mod_cast hN
  have hNne : (N : ℚ) ≠ 0 := ne_of_gt hNQ
  have hcl : 0 < b.length / N := div_pos hL hNQ
  have hspan : ∀ c : ℚ, c - b.length / 2 + N * (b.length / N) = c + b.length / 2 := by
    intro c
    field_simp
    ring
  obtain ⟨i, hi, hix1, hix2⟩ :=
    axis_slot N hN (b.center.x - b.length / 2) (b.length / N) p.x hcl (by linarith)
      (by rw [hspan]; linarith)
  obtain ⟨j, hj, hjy1, hjy2⟩ :=
    axis_slot N hN (b.center.y - b.length / 2) (b.length / N) p.y hcl (by linarith)
      (by rw [hspan]; linarith)
  obtain ⟨k, hk, hkz1, hkz2⟩ :=
    axis_slot N hN (b.center.z - b.length / 2) (b.length / N) p.z hcl (by linarith)
      (by rw [hspan]; linarith)
  refine ⟨(i, j, k), (mem_slots N (i, j, k)).mpr ⟨hi, hj, hk⟩, ?_⟩
  rw [inside_iff, childBBox_center_x, childBBox_center_y, childBBox_center_z, childBBox_length]
  refine ⟨⟨?_, ?_⟩, ⟨?_, ?_⟩, ⟨?_, ?_⟩⟩ <;> linarith

end CubeTree

/-! ## C5: totality of child selection -/

/-- Helper (shared with the insert lemmas): for a position inside a node's cube of positive
side, the lexicographic scan of `insertToChild` finds a child cube containing the position and
places the entity there. -/
theorem insertToChild_places (N MaxT : ℕ) (b : BBox) (ch : CTForest) (e : Entity)
    (hN : 0 < N) (hM : 0 < MaxT) (hL : 0 < b.length) (hch : ch.length = N ^ 3)
    (hin : CubeTree.inside b e.pos = true) :
    (∃ i j k, (CubeTree.slots N).find?
        (fun s => CubeTree.inside (CubeTree.childBBox N b s.1 s.2.1 s.2.2) e.pos)
          = some (i, j, k)) ∧
      (CubeTree.insertToChild N MaxT b ch e).allEntities.Perm (e :: ch.allEntities) := by
  obtain ⟨s₀, hs₀, hps₀⟩ := CubeTree.exists_child_slot N hN b hL e.pos hin
  have hisSome : ((CubeTree.slots N).find?
      (fun s => CubeTree.inside (CubeTree.childBBox N b s.1 s.2.1 s.2.2) e.pos)).isSome := by
    rw [List.find?_isSome]
    exact ⟨s₀, hs₀, hps₀⟩
  obtain ⟨s, hfind⟩ := Option.isSome_iff_exists.mp hisSome
  obtain ⟨i, j, k⟩ := s
  have hpred := List.find?_some hfind
  have hmem := List.mem_of_find?_eq_some hfind
  obtain ⟨hi, hj, hk⟩ := (CubeTree.mem_slots N (i, j, k)).mp hmem
  have hflat : CubeTree.flatIdx N i j k < ch.length := by
    rw [hch]
    exact CubeTree.flatIdx_lt N i j k hi hj hk
  refine ⟨⟨i, j, k, hfind⟩, ?_⟩
  rcases hslot : ch.getSlot (CubeTree.flatIdx N i j k) with _ | c
  · simp only [CubeTree.insertToChild, hfind, hslot]
    apply CTForest.allEntities_setSlot_perm e ch _ hflat
    rw [hslot]
    rw [CubeTree.mkLeaf_allEntities N MaxT _ e hM hpred]
    exact List.Perm.refl _
  · simp only [CubeTree.insertToChild, hfind, hslot]
    apply CTForest.allEntities_setSlot_perm e ch _ hflat
    rw [hslot]
    exact CubeTree.pushData_allEntities c e

/-- C5: confirmed (in the exact-arithmetic model).  For a position inside a node's cube (of
positive side), the lexicographic scan of `insertToChild` always finds a child cube containing
the position — `find?` returns a (unique, first) slot, so the fall-through branch in which the
entity would be silently not placed is unreachable — and the entity is placed: the multiset of
entities held across the child array is exactly the old one plus the new entity. -/
theorem insertToChild_total_inside (N MaxT : ℕ) (b : BBox) (ch : CTForest) (e : Entity)
    (hN : 0 < N) (hM : 0 < MaxT) (hL : 0 < b.length) (hch : ch.length = N ^ 3)
    (hin : CubeTree.inside b e.pos = true) :
    (∃ i j k, (CubeTree.slots N).find?
        (fun s => CubeTree.inside (CubeTree.childBBox N b s.1 s.2.1 s.2.2) e.pos)
          = some (i, j, k)) ∧
      (CubeTree.insertToChild N MaxT b ch e).allEntities.Perm (e :: ch.allEntities) :=
  insertToChild_places N MaxT b ch e hN hM hL hch hin

/-- Witness for C5 at a concrete instance: `N = 2`, `MaxT = 1`, the side-4 cube at the
origin, an empty child array and the entity at `(1,1,1)`. -/
theorem insertToChild_total_inside_witness :
    ((0 : ℚ) < demoBox.length ∧ (CTForest.nones 8).length = 2 ^ 3 ∧
      CubeTree.inside demoBox demoE0.pos = true) ∧
    ((∃ i j k, (CubeTree.slots 2).find?
        (fun s => CubeTree.inside (CubeTree.childBBox 2 demoBox s.1 s.2.1 s.2.2) demoE0.pos)
          = some (i, j, k)) ∧
      (CubeTree.insertToChild 2 1 demoBox (CTForest.nones 8) demoE0).allEntities.Perm
        (demoE0 :: (CTForest.nones 8).allEntities)) :=
  ⟨⟨by decide, by decide, by decide⟩,
    insertToChild_total_inside 2 1 demoBox (CTForest.nones 8) demoE0 (by decide) (by decide)
      (by decide) (by decide) (by decide)⟩

/-! ## C8: update with no movers -/

mutual

/-- Helper: when every entity of the subtree has `position = lastKnownPosition`, the collect
phase erases nothing and returns the subtree unchanged with an empty movers list. -/
theorem collect_no_movers_aux (t : CubeTree)
    (h : ∀ e ∈ t.allEntities, e.pos = e.prevPos) :
    t.collectAndRemove = (t, []) := by
  cases t with
  | mk b d ch =>
    have hd : ∀ e ∈ d, e.pos = e.prevPos := by
      intro e he
      exact h e (by rw [CubeTree.allEntities]; exact List.mem_append_left _ he)
    have hch : ∀ e ∈ ch.allEntities, e.pos = e.prevPos := by
      intro e he
      exact h e (by rw [CubeTree.allEntities]; exact List.mem_append_right _ he)
    have hmov : d.filter CubeTree.moved = [] := by
      apply List.filter_eq_nil_iff.mpr
      intro e he hT
      rw [CubeTree.moved, decide_eq_true_iff] at hT
      exact hT (hd e he)
    have hstay : (d.filter fun e => ! CubeTree.moved e) = d := by
      apply List.filter_eq_self.mpr
      intro e he
      rw [CubeTree.moved]
      simp [hd e he]
    rw [CubeTree.collectAndRemove, collectF_no_movers_aux ch hch, hmov, hstay]
    rfl

/-- Helper: forest part of `collect_no_movers_aux`. -/
theorem collectF_no_movers_aux (f : CTForest)
    (h : ∀ e ∈ f.allEntities, e.pos = e.prevPos) :
    f.collectAndRemove = (f, []) := by
  cases f with
  | nil => rfl
  | consNone tl =>
    rw [CTForest.collectAndRemove,
      collectF_no_movers_aux tl (by simpa [CTForest.allEntities] using h)]
  | consSome c tl =>
    have hc : ∀ e ∈ c.allEntities, e.pos = e.prevPos := by
      intro e he
      exact h e (by rw [CTForest.allEntities]; exact List.mem_append_left _ he)
    have htl : ∀ e ∈ tl.allEntities, e.pos = e.prevPos := by
      intro e he
      exact h e (by rw [CTForest.allEntities]; exact List.mem_append_right _ he)
    rw [CTForest.collectAndRemove, collect_no_movers_aux c hc, collectF_no_movers_aux tl htl]
    rfl

end

/-- C8: confirmed.  On a tree in which every held entity's position equals its last-known
position, the collect phase produces no movers and `update` returns the same root and entity
set; running it a second time therefore changes nothing either (both calls return exactly the
input tree). -/
theorem update_idempotent_no_movers (N MaxT fuel : ℕ) (t : CubeTree)
    (h : ∀ e ∈ t.allEntities, e.pos = e.prevPos) :
    t.collectAndRemove.2 = [] ∧ CubeTree.update N MaxT fuel t = some t ∧
      (CubeTree.update N MaxT fuel t).bind (CubeTree.update N MaxT fuel) = some t := by
  have hc := collect_no_movers_aux t h
  have hu : CubeTree.update N MaxT fuel t = some t := by
    rw [CubeTree.update, hc]
    rfl
  exact ⟨by rw [hc], hu, by rw [hu]; exact hu⟩

/-- Witness for C8 on the concrete one-leaf tree holding `demoE0` (whose position equals its
last-known position). -/
theorem update_idempotent_no_movers_witness :
    (∀ e ∈ demoFullLeaf.allEntities, e.pos = e.prevPos) ∧
      (demoFullLeaf.collectAndRemove.2 = [] ∧
        CubeTree.update 2 1 5 demoFullLeaf = some demoFullLeaf ∧
        (CubeTree.update 2 1 5 demoFullLeaf).bind (CubeTree.update 2 1 5)
          = some demoFullLeaf) :=
  ⟨by decide, update_idempotent_no_movers 2 1 5 demoFullLeaf (by decide)⟩

/-! ## C10: remove locates entities only through containing cubes -/

mutual

/-- Every node of the subtree that directly holds `x` in its own list has a cube that does
not contain `x`'s current position. -/
def CubeTree.holderMisses (x : Entity) : CubeTree → Bool
  | .mk b d ch => ((!(decide (x ∈ d))) || (!(CubeTree.inside b x.pos))) &&
      CTForest.holderMisses x ch

/-- Forest part of `holderMisses`. -/
def CTForest.holderMisses (x : Entity) : CTForest → Bool
  | .nil => true
  | .consNone tl => CTForest.holderMisses x tl
  | .consSome c tl => CubeTree.holderMisses x c && CTForest.holderMisses x tl

end

mutual

/-- Helper: when `remove` reports failure it has modified nothing (tree part). -/
theorem remove_false_unchanged_aux (x : Entity) (t : CubeTree) :
    (CubeTree.remove x t).1 = false → (CubeTree.remove x t).2 = t := by
  cases t with
  | mk b d ch =>
    by_cases hin : CubeTree.inside b x.pos = true
    · by_cases hmem : x ∈ d
      · simp [CubeTree.remove, hin, hmem]
      · simp only [CubeTree.remove, hin, if_true, hmem, if_false]
        intro h1
        have := removeF_false_unchanged_aux x ch h1
        simp [this]
    · simp [CubeTree.remove, hin]

/-- Helper: when `remove` reports failure it has modified nothing (forest part). -/
theorem removeF_false_unchanged_aux (x : Entity) (f : CTForest) :
    (CTForest.remove x f).1 = false → (CTForest.remove x f).2 = f := by
  cases f with
  | nil => intro _; rfl
  | consNone tl =>
    simp only [CTForest.remove]
    intro h
    have := removeF_false_unchanged_aux x tl h
    simp [this]
  | consSome c tl =>
    by_cases hc1 : (CubeTree.remove x c).1 = true
    · simp [CTForest.remove, hc1]
    · have hc1' : (CubeTree.remove x c).1 = false := by simpa using hc1
      simp only [CTForest.remove, hc1', Bool.false_eq_true, if_false]
      intro h
      have h2 := removeF_false_unchanged_aux x tl h
      have h3 := remove_false_unchanged_aux x c hc1'
      simp [h2]

end

mutual

/-- Helper: if every node holding `x` misses its position, `remove` fails (tree part). -/
theorem remove_misses_aux (x : Entity) (t : CubeTree) :
    CubeTree.holderMisses x t = true → (CubeTree.remove x t).1 = false := by
  cases t with
  | mk b d ch =>
    intro hm
    rw [CubeTree.holderMisses, Bool.and_eq_true, Bool.or_eq_true] at hm
    obtain ⟨hm1, hm2⟩ := hm
    by_cases hin : CubeTree.inside b x.pos = true
    · have hnmem : x ∉ d := by
        rcases hm1 with h | h
        · simpa using h
        · rw [hin] at h; cases h
      simp only [CubeTree.remove, hin, if_true, hnmem, if_false]
      exact removeF_misses_aux x ch hm2
    · simp [CubeTree.remove, hin]

/-- Helper: if every node holding `x` misses its position, `remove` fails (forest part). -/
theorem removeF_misses_aux (x : Entity) (f : CTForest) :
    CTForest.holderMisses x f = true → (CTForest.remove x f).1 = false := by
  cases f with
  | nil => intro _; rfl
  | consNone tl =>
    intro hm
    rw [CTForest.holderMisses] at hm
    simpa [CTForest.remove] using removeF_misses_aux x tl hm
  | consSome c tl =>
    intro hm
    rw [CTForest.holderMisses, Bool.and_eq_true] at hm
    obtain ⟨hmc, hmtl⟩ := hm
    have hc := remove_misses_aux x c hmc
    simp only [CTForest.remove, hc, Bool.false_eq_true, if_false]
    exact removeF_misses_aux x tl hmtl

end

/-- A reachable stale state: `demoFarE` was inserted while at `(1,1,1)`-like coordinates and
has since moved to `(10,0,0)`, outside its holder's cube, with no update pass run. -/
def demoStale : CubeTree := .mk demoBox [demoFarE] (CTForest.nones 8)

/-- C10: confirmed.  If an entity is held only by nodes whose cubes do not contain its
current position, `remove` on the root returns `false` and leaves the tree — hence the held
entity — untouched; and in general a failed `remove` never modifies the tree. -/
theorem remove_requires_containing_cube (x : Entity) (t : CubeTree)
    (hmiss : CubeTree.holderMisses x t = true) (hheld : x ∈ t.allEntities) :
    ((CubeTree.remove x t).1 = false ∧ (CubeTree.remove x t).2 = t ∧
        x ∈ (CubeTree.remove x t).2.allEntities) ∧
      ∀ u : CubeTree, (CubeTree.remove x u).1 = false → (CubeTree.remove x u).2 = u := by
  have h1 := remove_misses_aux x t hmiss
  have h2 := remove_false_unchanged_aux x t h1
  exact ⟨⟨h1, h2, by rw [h2]; exact hheld⟩, fun u => remove_false_unchanged_aux x u⟩

/-- Witness for C10: the one-leaf tree whose single entity has moved to `(10,0,0)`, outside
the root cube. -/
theorem remove_requires_containing_cube_witness :
    (CubeTree.holderMisses demoFarE demoStale = true ∧ demoFarE ∈ demoStale.allEntities) ∧
      (((CubeTree.remove demoFarE demoStale).1 = false ∧
          (CubeTree.remove demoFarE demoStale).2 = demoStale ∧
          demoFarE ∈ (CubeTree.remove demoFarE demoStale).2.allEntities) ∧
        ∀ u : CubeTree, (CubeTree.remove demoFarE u).1 = false →
          (CubeTree.remove demoFarE u).2 = u) :=
  ⟨⟨by decide, by decide⟩,
    remove_requires_containing_cube demoFarE demoStale (by decide) (by decide)⟩

/-! ## C7: exactness of the radius query -/

/-- Key broad-phase lemma: if a point `q` is within Euclidean distance `r` of the query
center and lies inside a cube, the slab test between the sphere's bounding box and that cube
passes — the broad phase never prunes a node whose cube contains a qualifying entity. -/
theorem distLe_inside_intersects (e q : Vec3) (r : ℚ) (b : BBox)
    (hd : CubeTree.distLe e q r = true) (hin : CubeTree.inside b q = true) :
    CubeTree.intersects e r b = true := by
  rw [CubeTree.distLe_iff] at hd
  obtain ⟨hr, hsum⟩ := hd
  rw [CubeTree.inside_iff] at hin
  obtain ⟨⟨hx1, hx2⟩, ⟨hy1, hy2⟩, ⟨hz1, hz2⟩⟩ := hin
  have hx : -r ≤ e.x - q.x ∧ e.x - q.x ≤ r := by
    apply abs_le_of_sq_le_sq' _ hr
    nlinarith [sq_nonneg (e.y - q.y), sq_nonneg (e.z - q.z)]
  have hy : -r ≤ e.y - q.y ∧ e.y - q.y ≤ r := by
    apply abs_le_of_sq_le_sq' _ hr
    nlinarith [sq_nonneg (e.x - q.x), sq_nonneg (e.z - q.z)]
  have hz : -r ≤ e.z - q.z ∧ e.z - q.z ≤ r := by
    apply abs_le_of_sq_le_sq' _ hr
    nlinarith [sq_nonneg (e.x - q.x), sq_nonneg (e.y - q.y)]
  rw [CubeTree.intersects_iff]
  refine ⟨⟨?_, ?_⟩, ⟨?_, ?_⟩, ⟨?_, ?_⟩⟩ <;>
    linarith [hx.1, hx.2, hy.1, hy.2, hz.1, hz.2]

mutual

/-- Helper for C7, tree part: on a geometrically well-formed subtree the query returns
exactly the held entities within distance `r`. -/
theorem queryRange_exact_aux (e : Entity) (r : ℚ) (t : CubeTree)
    (hcov : CubeTree.covers t = true) (q : Entity) :
    q ∈ CubeTree.queryRange e r t ↔
      q ∈ t.allEntities ∧ CubeTree.distLe e.pos q.pos r = true := by
  cases t with
  | mk b d ch =>
    rw [CubeTree.covers, Bool.and_eq_true] at hcov
    obtain ⟨hall, hchcov⟩ := hcov
    rw [List.all_eq_true] at hall
    by_cases hint : CubeTree.intersects e.pos r b = true
    · rw [CubeTree.queryRange, if_pos hint, List.mem_append, List.mem_filter,
        queryRangeF_exact_aux e r ch hchcov q, CubeTree.allEntities, List.mem_append]
      constructor
      · rintro (⟨hq, hd⟩ | ⟨hq, hd⟩)
        · exact ⟨Or.inl hq, hd⟩
        · exact ⟨Or.inr hq, hd⟩
      · rintro ⟨hq | hq, hd⟩
        · exact Or.inl ⟨hq, hd⟩
        · exact Or.inr ⟨hq, hd⟩
    · rw [CubeTree.queryRange, if_neg hint]
      simp only [List.not_mem_nil, false_iff]
      rintro ⟨hq, hd⟩
      apply hint
      apply distLe_inside_intersects e.pos q.pos r b hd
      rw [CubeTree.allEntities] at hq
      exact hall q hq

/-- Helper for C7, forest part. -/
theorem queryRangeF_exact_aux (e : Entity) (r : ℚ) (f : CTForest)
    (hcov : CTForest.covers f = true) (q : Entity) :
    q ∈ CTForest.queryRange e r f ↔
      q ∈ f.allEntities ∧ CubeTree.distLe e.pos q.pos r = true := by
  cases f with
  | nil => simp [CTForest.queryRange, CTForest.allEntities]
  | consNone tl =>
    rw [CTForest.queryRange, CTForest.allEntities]
    exact queryRangeF_exact_aux e r tl (by simpa [CTForest.covers] using hcov) q
  | consSome c tl =>
    rw [CTForest.covers, Bool.and_eq_true] at hcov
    obtain ⟨hc, htl⟩ := hcov
    rw [CTForest.queryRange, CTForest.allEntities, List.mem_append, List.mem_append,
      queryRange_exact_aux e r c hc q, queryRangeF_exact_aux e r tl htl q]
    tauto

end

/-- C7: confirmed (on geometrically well-formed trees: every entity of a subtree lies inside
that subtree's cube, the data-model invariant of the spec).  `queryAround` — `queryRange` on
the query entity's position — returns exactly the held entities within Euclidean distance
`r` (so no returned entity lies farther than `r`, and the queried entity itself may appear);
moreover the per-node broad-phase slab test never prunes a cube containing a qualifying
entity. -/
theorem queryRange_exact (e : Entity) (r : ℚ) (t : CubeTree) (q : Entity)
    (hcov : CubeTree.covers t = true) :
    (q ∈ CubeTree.queryRange e r t ↔
      q ∈ t.allEntities ∧ CubeTree.distLe e.pos q.pos r = true) ∧
    (∀ b : BBox, CubeTree.distLe e.pos q.pos r = true → CubeTree.inside b q.pos = true →
      CubeTree.intersects e.pos r b = true) :=
  ⟨queryRange_exact_aux e r t hcov q,
    fun b hd hin => distLe_inside_intersects e.pos q.pos r b hd hin⟩

/-- Witness for C7 on the concrete one-leaf tree: querying around `demoE0` with radius 2
returns exactly the entities within distance 2, and `demoE0` itself qualifies. -/
theorem queryRange_exact_witness :
    (CubeTree.covers demoFullLeaf = true) ∧
    ((demoE0 ∈ CubeTree.queryRange demoE0 2 demoFullLeaf ↔
        demoE0 ∈ demoFullLeaf.allEntities ∧
          CubeTree.distLe demoE0.pos demoE0.pos 2 = true) ∧
      (∀ b : BBox, CubeTree.distLe demoE0.pos demoE0.pos 2 = true →
        CubeTree.inside b demoE0.pos = true →
        CubeTree.intersects demoE0.pos 2 b = true)) :=
  ⟨by decide, queryRange_exact demoE0 2 demoFullLeaf demoE0 (by decide)⟩

/-! ## C3: structural lemmas for the update/no-loss argument -/

theorem CTForest.length_setSlot (v : Option CubeTree) :
    ∀ (f : CTForest) (m : ℕ), (f.setSlot m v).length = f.length := by
  intro f
  cases f with
  | nil => intro m; rfl
  | consNone tl =>
    intro m
    cases m with
    | zero => cases v <;> rfl
    | succ m' => cases v <;> simp [CTForest.setSlot, CTForest.length,
        CTForest.length_setSlot _ tl m']
  | consSome hd tl =>
    intro m
    cases m with
    | zero => cases v <;> rfl
    | succ m' => cases v <;> simp [CTForest.setSlot, CTForest.length,
        CTForest.length_setSlot _ tl m']

theorem CTForest.anySome_setSlot_some (c : CubeTree) :
    ∀ (f : CTForest) (m : ℕ), f.anySome = true → (f.setSlot m (some c)).anySome = true := by
  intro f
  cases f with
  | nil => intro m h; exact h
  | consNone tl =>
    intro m h
    cases m with
    | zero => rfl
    | succ m' =>
      rw [CTForest.anySome] at h
      rw [CTForest.setSlot, CTForest.anySome]
      exact CTForest.anySome_setSlot_some c tl m' h
  | consSome hd tl =>
    intro m _
    cases m with
    | zero => rfl
    | succ m' => rfl

theorem CTForest.anySome_setSlot_nones (c : CubeTree) :
    ∀ (n m : ℕ), m < n → ((CTForest.nones n).setSlot m (some c)).anySome = true := by
  intro n
  induction n with
  | zero => intro m hm; omega
  | succ n' ih =>
    intro m hm
    cases m with
    | zero => rfl
    | succ m' =>
      rw [CTForest.nones, CTForest.setSlot, CTForest.anySome]
      exact ih m' (by omega)

theorem CTForest.allEntities_setSlot_nones (c : CubeTree) :
    ∀ (n m : ℕ), m < n →
      ((CTForest.nones n).setSlot m (some c)).allEntities = c.allEntities := by
  intro n
  induction n with
  | zero => intro m hm; omega
  | succ n' ih =>
    intro m hm
    cases m with
    | zero =>
      rw [CTForest.nones, CTForest.setSlot, CTForest.allEntities,
        CTForest.allEntities_nones, List.append_nil]
    | succ m' =>
      rw [CTForest.nones, CTForest.setSlot, CTForest.allEntities]
      exact ih m' (by omega)

theorem CubeTree.insertToChild_length (N MaxT : ℕ) (b : BBox) (ch : CTForest) (e : Entity) :
    (CubeTree.insertToChild N MaxT b ch e).length = ch.length := by
  rcases hf : (CubeTree.slots N).find?
      (fun s => CubeTree.inside (CubeTree.childBBox N b s.1 s.2.1 s.2.2) e.pos) with _ | s
  · simp [CubeTree.insertToChild, hf]
  · obtain ⟨i, j, k⟩ := s
    rcases hslot : ch.getSlot (CubeTree.flatIdx N i j k) with _ | c <;>
      simp [CubeTree.insertToChild, hf, hslot, CTForest.length_setSlot]

theorem CubeTree.insertToChild_anySome (N MaxT : ℕ) (b : BBox) (ch : CTForest) (e : Entity)
    (h : ch.anySome = true) :
    (CubeTree.insertToChild N MaxT b ch e).anySome = true := by
  rcases hf : (CubeTree.slots N).find?
      (fun s => CubeTree.inside (CubeTree.childBBox N b s.1 s.2.1 s.2.2) e.pos) with _ | s
  · simpa [CubeTree.insertToChild, hf] using h
  · obtain ⟨i, j, k⟩ := s
    rcases hslot : ch.getSlot (CubeTree.flatIdx N i j k) with _ | c <;>
      simp [CubeTree.insertToChild, hf, hslot, CTForest.anySome_setSlot_some _ ch _ h]

theorem CubeTree.grow_box (N : ℕ) (t : CubeTree) :
    (CubeTree.grow N t).box.center = t.box.center ∧
      (CubeTree.grow N t).box.length = t.box.length * t.box.length := by
  cases t with
  | mk b d ch => exact ⟨rfl, by simp [CubeTree.grow, CubeTree.box, qMul_eq]⟩

theorem CubeTree.grow_children_length (N : ℕ) (t : CubeTree) :
    (CubeTree.grow N t).children.length = N ^ 3 := by
  cases t with
  | mk b d ch =>
    simp [CubeTree.grow, CubeTree.children, CTForest.length_setSlot, CTForest.length_nones]

theorem CubeTree.grow_isParent (N : ℕ) (hN : 0 < N) (t : CubeTree) :
    (CubeTree.grow N t).children.anySome = true := by
  cases t with
  | mk b d ch =>
    simp only [CubeTree.grow, CubeTree.children, CubeTree.box, lt_irrefl, if_false]
    apply CTForest.anySome_setSlot_nones
    exact CubeTree.flatIdx_lt N (N - 1) (N - 1) (N - 1) (by omega) (by omega) (by omega)

theorem CubeTree.grow_allEntities (N : ℕ) (hN : 0 < N) (t : CubeTree) :
    (CubeTree.grow N t).allEntities = t.allEntities := by
  cases t with
  | mk b d ch =>
    simp only [CubeTree.grow, CubeTree.box, lt_irrefl, if_false]
    rw [CubeTree.allEntities, List.nil_append]
    apply CTForest.allEntities_setSlot_nones
    exact CubeTree.flatIdx_lt N (N - 1) (N - 1) (N - 1) (by omega) (by omega) (by omega)

/-- Conditions on the current root threaded through the reinsertion fold of `update`: a
growable cube (side above 1), a full `N ^ 3` child array, and — while the root is still a
leaf — room for the remaining `rem` reinsertions on top of the current list. -/
def GoodRoot (N MaxT : ℕ) (t : CubeTree) (rem : ℕ) : Prop :=
  1 < t.box.length ∧ t.children.length = N ^ 3 ∧
    (t.children.anySome = false → t.data.length + rem ≤ MaxT)

theorem insertStep_good (N MaxT : ℕ) (hN : 0 < N) (hM : 0 < MaxT) (b : BBox)
    (d : List Entity) (ch : CTForest) (e : Entity) (hL : 0 < b.length)
    (hch : ch.length = N ^ 3) (hroom : ch.anySome = false → d.length < MaxT)
    (hin : CubeTree.inside b e.pos = true) :
    ∃ d' ch', CubeTree.insertStep N MaxT (.mk b d ch) e = .mk b d' ch' ∧
      (CubeTree.mk b d' ch').allEntities.Perm (e :: (CubeTree.mk b d ch).allEntities) ∧
      ch'.length = N ^ 3 ∧
      (ch.anySome = true → ch'.anySome = true) ∧
      (ch.anySome = false → ch' = ch ∧ d' = d ++ [e]) := by
  by_cases hpar : ch.anySome = true
  · refine ⟨d, CubeTree.insertToChild N MaxT b ch e, ?_, ?_, ?_, ?_, ?_⟩
    · simp [CubeTree.insertStep, hpar]
    · rw [CubeTree.allEntities, CubeTree.allEntities]
      have hperm := (insertToChild_places N MaxT b ch e hN hM hL hch hin).2
      exact (hperm.append_left d).trans List.perm_middle
    · rw [CubeTree.insertToChild_length, hch]
    · intro _
      exact CubeTree.insertToChild_anySome N MaxT b ch e hpar
    · intro h
      rw [h] at hpar
      simp at hpar
  · have hpar' : ch.anySome = false := by simpa using hpar
    have hroom' := hroom hpar'
    refine ⟨d ++ [e], ch, ?_, ?_, hch, ?_, fun _ => ⟨rfl, rfl⟩⟩
    · simp [CubeTree.insertStep, hpar', hroom']
    · rw [CubeTree.allEntities, CubeTree.allEntities, List.append_assoc,
        List.singleton_append]
      exact List.perm_middle
    · intro h
      rw [h] at hpar'
      simp at hpar'

theorem insert_mono (N MaxT : ℕ) :
    ∀ (fuel : ℕ) (t : CubeTree) (e : Entity) (t' : CubeTree),
      CubeTree.insert N MaxT fuel t e = some t' →
      ∀ fuel' : ℕ, fuel ≤ fuel' → CubeTree.insert N MaxT fuel' t e = some t' := by
  intro fuel
  induction fuel with
  | zero => intro t e t' h; cases h
  | succ n ih =>
    intro t e t' h fuel' hf
    obtain ⟨f'', rfl⟩ : ∃ f'', fuel' = f'' + 1 := ⟨fuel' - 1, by omega⟩
    rw [CubeTree.insert] at h ⊢
    by_cases hin : CubeTree.inside t.box e.pos = true
    · rw [if_pos hin] at h ⊢
      exact h
    · rw [if_neg hin] at h ⊢
      exact ih (CubeTree.grow N t) e t' h f'' (by omega)

theorem grow_iter_box (N : ℕ) (t : CubeTree) (k : ℕ) :
    ((CubeTree.grow N)^[k] t).box.center = t.box.center ∧
      ((CubeTree.grow N)^[k] t).box.length = t.box.length ^ (2 ^ k) := by
  induction k with
  | zero => simp
  | succ n ih =>
    obtain ⟨hc, hl⟩ := ih
    obtain ⟨hc', hl'⟩ := CubeTree.grow_box N ((CubeTree.grow N)^[n] t)
    rw [Function.iterate_succ_apply']
    refine ⟨by rw [hc', hc], ?_⟩
    rw [hl', hl, ← pow_add]
    have h2 : 2 ^ n + 2 ^ n = 2 ^ (n + 1) := by
      rw [pow_succ]
      omega
    rw [h2]

theorem exists_grow_inside (N : ℕ) (t : CubeTree) (p : Vec3) (hL : 1 < t.box.length) :
    ∃ k : ℕ, CubeTree.inside ((CubeTree.grow N)^[k] t).box p = true := by
  set c := t.box.center with hc
  set L := t.box.length with hLdef
  set B : ℚ := 2 * |p.x - c.x| + 2 * |p.y - c.y| + 2 * |p.z - c.z| with hB
  obtain ⟨n, hn⟩ := pow_unbounded_of_one_lt B hL
  have h2n : n ≤ 2 ^ n := Nat.le_of_lt (Nat.lt_two_pow n)
  have hpow : L ^ n ≤ L ^ (2 ^ n) := pow_le_pow_right₀ (le_of_lt hL) h2n
  refine ⟨n, ?_⟩
  obtain ⟨hcen, hlen⟩ := grow_iter_box N t n
  rw [CubeTree.inside_iff, hcen, hlen, ← hc, ← hLdef]
  have hx1 := le_abs_self (p.x - c.x)
  have hx2 := neg_abs_le (p.x - c.x)
  have hy1 := le_abs_self (p.y - c.y)
  have hy2 := neg_abs_le (p.y - c.y)
  have hz1 := le_abs_self (p.z - c.z)
  have hz2 := neg_abs_le (p.z - c.z)
  have hax := abs_nonneg (p.x - c.x)
  have hay := abs_nonneg (p.y - c.y)
  have haz := abs_nonneg (p.z - c.z)
  refine ⟨⟨?_, ?_⟩, ⟨?_, ?_⟩, ⟨?_, ?_⟩⟩ <;> linarith

theorem insert_inside_case (N MaxT : ℕ) (hN : 0 < N) (hM : 0 < MaxT) (e : Entity)
    (rem fuel : ℕ) (t : CubeTree) (hg : GoodRoot N MaxT t (rem + 1))
    (hin : CubeTree.inside t.box e.pos = true) :
    ∃ t', CubeTree.insert N MaxT (fuel + 1) t e = some t' ∧
      t'.allEntities.Perm (e :: t.allEntities) ∧ GoodRoot N MaxT t' rem := by
  obtain ⟨hL, hch, hleaf⟩ := hg
  obtain ⟨b, d, ch⟩ := t
  simp only [CubeTree.box] at hL hin
  simp only [CubeTree.children] at hch hleaf
  simp only [CubeTree.data] at hleaf
  have hroom : ch.anySome = false → d.length < MaxT := by
    intro h
    have := hleaf h
    omega
  obtain ⟨d', ch', heq, hperm, hlen, hpar, hleafcase⟩ :=
    insertStep_good N MaxT hN hM b d ch e (by linarith) hch hroom hin
  refine ⟨.mk b d' ch', ?_, hperm, ?_, ?_, ?_⟩
  · rw [CubeTree.insert]
    simp only [CubeTree.box, hin, if_true]
    rw [heq]
  · exact hL
  · exact hlen
  · intro h
    simp only [CubeTree.children] at h
    have hchf : ch.anySome = false := by
      by_cases hc2 : ch.anySome = true
      · rw [hpar hc2] at h
        cases h
      · simpa using hc2
    obtain ⟨-, hd'⟩ := hleafcase hchf
    simp only [CubeTree.data, hd', List.length_append, List.length_singleton]
    have := hleaf hchf
    omega

theorem insert_with_fuel (N MaxT : ℕ) (hN : 0 < N) (hM : 0 < MaxT) (e : Entity) (rem : ℕ) :
    ∀ (k : ℕ) (t : CubeTree), GoodRoot N MaxT t (rem + 1) →
      CubeTree.inside ((CubeTree.grow N)^[k] t).box e.pos = true →
      ∃ t', CubeTree.insert N MaxT (k + 1) t e = some t' ∧
        t'.allEntities.Perm (e :: t.allEntities) ∧ GoodRoot N MaxT t' rem := by
  intro k
  induction k with
  | zero =>
    intro t hg hin
    rw [Function.iterate_zero, id] at hin
    exact insert_inside_case N MaxT hN hM e rem 0 t hg hin
  | succ n ih =>
    intro t hg hin
    by_cases hins : CubeTree.inside t.box e.pos = true
    · exact insert_inside_case N MaxT hN hM e rem (n + 1) t hg hins
    · rw [CubeTree.insert, if_neg hins]
      have hg' : GoodRoot N MaxT (CubeTree.grow N t) (rem + 1) := by
        obtain ⟨hL, hch, hleaf⟩ := hg
        obtain ⟨hc', hl'⟩ := CubeTree.grow_box N t
        refine ⟨?_, CubeTree.grow_children_length N t, ?_⟩
        · rw [hl']
          nlinarith
        · intro h
          rw [CubeTree.grow_isParent N hN t] at h
          cases h
      have hin' : CubeTree.inside ((CubeTree.grow N)^[n] (CubeTree.grow N t)).box e.pos
          = true := by
        rw [← Function.iterate_succ_apply]
        exact hin
      obtain ⟨t', h1, h2, h3⟩ := ih (CubeTree.grow N t) hg' hin'
      refine ⟨t', h1, ?_, h3⟩
      rw [CubeTree.grow_allEntities N hN t] at h2
      exact h2

theorem insert_one (N MaxT : ℕ) (hN : 0 < N) (hM : 0 < MaxT) (t : CubeTree) (e : Entity)
    (rem : ℕ) (hg : GoodRoot N MaxT t (rem + 1)) :
    ∃ fuel₀ t', (∀ fuel : ℕ, fuel₀ ≤ fuel → CubeTree.insert N MaxT fuel t e = some t') ∧
      t'.allEntities.Perm (e :: t.allEntities) ∧ GoodRoot N MaxT t' rem := by
  obtain ⟨k, hk⟩ := exists_grow_inside N t e.pos hg.1
  obtain ⟨t', h1, h2, h3⟩ := insert_with_fuel N MaxT hN hM e rem k t hg hk
  exact ⟨k + 1, t', fun fuel hf => insert_mono N MaxT (k + 1) t e t' h1 fuel hf, h2, h3⟩

theorem collect_box (t : CubeTree) : t.collectAndRemove.1.box = t.box := by
  cases t
  rfl

theorem collect_children_eq (t : CubeTree) :
    t.collectAndRemove.1.children = (CTForest.collectAndRemove t.children).1 := by
  cases t
  rfl

theorem collect_data_eq (t : CubeTree) :
    t.collectAndRemove.1.data = t.data.filter (fun e => ! CubeTree.moved e) := by
  cases t
  rfl

theorem collect_movers_eq (t : CubeTree) :
    t.collectAndRemove.2
      = t.data.filter CubeTree.moved ++ (CTForest.collectAndRemove t.children).2 := by
  cases t
  rfl

theorem collectF_length (f : CTForest) :
    (CTForest.collectAndRemove f).1.length = f.length := by
  cases f with
  | nil => rfl
  | consNone tl => simp [CTForest.collectAndRemove, CTForest.length, collectF_length tl]
  | consSome c tl => simp [CTForest.collectAndRemove, CTForest.length, collectF_length tl]

theorem collectF_anySome (f : CTForest) :
    (CTForest.collectAndRemove f).1.anySome = f.anySome := by
  cases f with
  | nil => rfl
  | consNone tl => simp [CTForest.collectAndRemove, CTForest.anySome, collectF_anySome tl]
  | consSome c tl => simp [CTForest.collectAndRemove, CTForest.anySome]

theorem collectF_no_children (f : CTForest) (h : f.anySome = false) :
    CTForest.collectAndRemove f = (f, []) := by
  cases f with
  | nil => rfl
  | consNone tl =>
    rw [CTForest.anySome] at h
    simp [CTForest.collectAndRemove, collectF_no_children tl h]
  | consSome c tl =>
    rw [CTForest.anySome] at h
    simp at h

mutual

/-- Helper: the collect phase partitions the tree's entity multiset into the kept entities
and the movers (tree part). -/
theorem collect_perm_aux (t : CubeTree) :
    (t.allEntities : Multiset Entity)
      = ↑t.collectAndRemove.1.allEntities + ↑t.collectAndRemove.2 := by
  cases t with
  | mk b d ch =>
    have hIH := collectF_perm_aux ch
    have hsplit : (d : Multiset Entity)
        = ↑(d.filter CubeTree.moved) + ↑(d.filter fun e => ! CubeTree.moved e) := by
      have hperm := List.filter_append_perm CubeTree.moved d
      rw [Multiset.coe_eq_coe.mpr hperm.symm]
      rfl
    show (↑d + ↑ch.allEntities : Multiset Entity)
        = (↑(d.filter fun e => ! CubeTree.moved e)
            + ↑(CTForest.collectAndRemove ch).1.allEntities)
          + (↑(d.filter CubeTree.moved) + ↑(CTForest.collectAndRemove ch).2)
    rw [hsplit, hIH]
    abel

/-- Helper: forest part of `collect_perm_aux`. -/
theorem collectF_perm_aux (f : CTForest) :
    (f.allEntities : Multiset Entity)
      = ↑(CTForest.collectAndRemove f).1.allEntities + ↑(CTForest.collectAndRemove f).2 := by
  cases f with
  | nil => rfl
  | consNone tl =>
    show (↑tl.allEntities : Multiset Entity)
        = ↑(CTForest.collectAndRemove tl).1.allEntities + ↑(CTForest.collectAndRemove tl).2
    exact collectF_perm_aux tl
  | consSome c tl =>
    have h1 := collect_perm_aux c
    have h2 := collectF_perm_aux tl
    show (↑c.allEntities + ↑tl.allEntities : Multiset Entity)
        = (↑(CubeTree.collectAndRemove c).1.allEntities
            + ↑(CTForest.collectAndRemove tl).1.allEntities)
          + (↑(CubeTree.collectAndRemove c).2 + ↑(CTForest.collectAndRemove tl).2)
    rw [h1, h2]
    abel

end

theorem reinsert_fold (N MaxT : ℕ) (hN : 0 < N) (hM : 0 < MaxT) :
    ∀ (ms : List Entity) (t : CubeTree), GoodRoot N MaxT t ms.length →
      ∃ fuel t', (∀ fuel' : ℕ, fuel ≤ fuel' →
          ms.foldl (fun acc e => acc.bind fun tr =>
            CubeTree.insert N MaxT fuel' tr { e with prevPos := e.pos }) (some t) = some t') ∧
        t'.allEntities.Perm ((ms.map fun e => { e with prevPos := e.pos }) ++ t.allEntities) := by
  intro ms
  induction ms with
  | nil =>
    intro t hg
    exact ⟨0, t, fun _ _ => rfl, by simp⟩
  | cons e ms' ih =>
    intro t hg
    have hg' : GoodRoot N MaxT t (ms'.length + 1) := by
      simpa [List.length_cons] using hg
    obtain ⟨f₁, t₁, h₁, hperm₁, hgood₁⟩ :=
      insert_one N MaxT hN hM t { e with prevPos := e.pos } ms'.length hg'
    obtain ⟨f₂, t₂, h₂, hperm₂⟩ := ih t₁ hgood₁
    refine ⟨max f₁ f₂, t₂, ?_, ?_⟩
    · intro fuel' hf
      rw [List.foldl_cons]
      have e1 : CubeTree.insert N MaxT fuel' t { e with prevPos := e.pos } = some t₁ :=
        h₁ fuel' (le_trans (le_max_left _ _) hf)
      rw [show ((some t).bind fun tr =>
          CubeTree.insert N MaxT fuel' tr { e with prevPos := e.pos }) = some t₁ from e1]
      exact h₂ fuel' (le_trans (le_max_right _ _) hf)
    · refine hperm₂.trans ?_
      refine ((hperm₁).append_left _).trans ?_
      rw [List.map_cons, List.cons_append]
      exact List.perm_middle

/-- C3: confirmed (sequential reading, well-formed root).  For an update pass on a tree whose
root cube can grow (side above 1), whose root child array has the full `N ^ 3` slots, whose
root — if still a leaf — respects the capacity bound, and whose entity identities are
pairwise distinct, there is enough fuel for every reinsertion's growth loop to finish and the
resulting tree holds every collected mover's identity exactly once — also when a mover's
position lies outside the root cube and reinsertion must grow the root. -/
theorem update_no_mover_lost (N MaxT : ℕ) (t : CubeTree) (hN : 0 < N) (hM : 0 < MaxT)
    (hL : 1 < t.box.length) (hch : t.children.length = N ^ 3)
    (hleaf : t.children.anySome = false → t.data.length ≤ MaxT)
    (hnodup : (t.allEntities.map Entity.id).Nodup) :
    ∃ fuel t', CubeTree.update N MaxT fuel t = some t' ∧
      ∀ e ∈ t.collectAndRemove.2, (t'.allEntities.map Entity.id).count e.id = 1 := by
  have hgood : GoodRoot N MaxT t.collectAndRemove.1 t.collectAndRemove.2.length := by
    refine ⟨?_, ?_, ?_⟩
    · rw [collect_box]
      exact hL
    · rw [collect_children_eq, collectF_length]
      exact hch
    · intro hpar
      rw [collect_children_eq, collectF_anySome] at hpar
      have hempty := collectF_no_children t.children hpar
      rw [collect_data_eq, collect_movers_eq, hempty]
      simp only [List.append_nil]
      have hlen : (t.data.filter CubeTree.moved).length
          + (t.data.filter fun e => ! CubeTree.moved e).length = t.data.length := by
        have h := (List.filter_append_perm CubeTree.moved t.data).length_eq
        simpa [List.length_append] using h
      have := hleaf hpar
      omega
  obtain ⟨fuel, t', hfold, hperm⟩ :=
    reinsert_fold N MaxT hN hM t.collectAndRemove.2 t.collectAndRemove.1 hgood
  refine ⟨fuel, t', ?_, ?_⟩
  · show t.collectAndRemove.2.foldl (fun acc e => acc.bind fun tr =>
        CubeTree.insert N MaxT fuel tr { e with prevPos := e.pos })
        (some t.collectAndRemove.1) = some t'
    exact hfold fuel le_rfl
  · intro e he
    have hcount1 : (t'.allEntities.map Entity.id).count e.id
        = (t.collectAndRemove.2.map Entity.id).count e.id
          + (t.collectAndRemove.1.allEntities.map Entity.id).count e.id := by
      rw [List.Perm.count_eq (hperm.map Entity.id), List.map_append, List.count_append,
        List.map_map]
      rfl
    have hsplitM : (t.allEntities.map Entity.id).count e.id
        = (t.collectAndRemove.1.allEntities.map Entity.id).count e.id
          + (t.collectAndRemove.2.map Entity.id).count e.id := by
      have hp : t.allEntities.Perm
          (t.collectAndRemove.1.allEntities ++ t.collectAndRemove.2) :=
        Multiset.coe_eq_coe.mp
          (show (↑t.allEntities : Multiset Entity)
              = ↑(t.collectAndRemove.1.allEntities ++ t.collectAndRemove.2)
            from collect_perm_aux t)
      rw [List.Perm.count_eq (hp.map Entity.id), List.map_append, List.count_append]
    have hle1 : (t.allEntities.map Entity.id).count e.id ≤ 1 :=
      List.nodup_iff_count_le_one.mp hnodup e.id
    have hge1 : 1 ≤ (t.collectAndRemove.2.map Entity.id).count e.id := by
      have hmem : e.id ∈ t.collectAndRemove.2.map Entity.id := List.mem_map_of_mem _ he
      exact List.count_pos_iff.mpr hmem
    rw [hcount1]
    omega

/-- Entity that has moved since insertion: position `(1,1,1)`, last-known `(0,0,0)`. -/
def demoMover : Entity := ⟨4, ⟨1, 1, 1⟩, ⟨0, 0, 0⟩⟩

/-- One-leaf tree holding the mover, for the C3 witness. -/
def demoMoverTree : CubeTree := .mk demoBox [demoMover] (CTForest.nones 8)

/-- Witness for C3 on a concrete tree with one mover. -/
theorem update_no_mover_lost_witness :
    ((1 : ℚ) < demoMoverTree.box.length ∧ demoMoverTree.children.length = 2 ^ 3 ∧
      (demoMoverTree.children.anySome = false → demoMoverTree.data.length ≤ 1) ∧
      (demoMoverTree.allEntities.map Entity.id).Nodup) ∧
    (∃ fuel t', CubeTree.update 2 1 fuel demoMoverTree = some t' ∧
      ∀ e ∈ demoMoverTree.collectAndRemove.2,
        (t'.allEntities.map Entity.id).count e.id = 1) :=
  ⟨⟨by decide, by decide, by decide, by decide⟩,
    update_no_mover_lost 2 1 demoMoverTree (by decide) (by decide) (by decide) (by decide)
      (by decide) (by decide)⟩
